import Mathlib

/-!
Verification development for the crypto repository.

The repository has two source files:
- chacha20/chacha/chacha_amd64.go : a one-shot and a resumable ChaCha
  stream-cipher front end over two assembly routines (Core, XORBlocks);
- cipher/eax.go : the EAX AEAD mode over an injected block cipher and a
  CMAC instance.

Bytes are modelled as Nat (values < 256 in all concrete instances), byte
buffers as List Nat.  The assembly ChaCha block function, the external
CMAC and the repository root XOR helper are not under src/, so they are
modelled from the spec as abstract functions (see the doc comments that
start with the words Modelled from the spec).
-/

/-- XOR of two byte buffers, truncated to the shorter one.
Modelled from the spec: the repository root helper XOR(dst, src, with)
xors min(len(src), len(with)) bytes of src and with into dst and returns
that count; bytes of dst past that count are left unchanged. -/
def xorList (a b : List Nat) : List Nat :=
  List.zipWith (fun x y => x ^^^ y) a b

theorem xorList_length (a b : List Nat) :
    (xorList a b).length = min a.length b.length := by
  simp [xorList]

theorem xorList_nil_right (a : List Nat) : xorList a [] = [] := by
  simp [xorList]

theorem xorList_append {a₁ b₁ : List Nat} (a₂ b₂ : List Nat)
    (h : a₁.length = b₁.length) :
    xorList (a₁ ++ a₂) (b₁ ++ b₂) = xorList a₁ b₁ ++ xorList a₂ b₂ := by
  simp [xorList, List.zipWith_append _ _ _ _ _ h]

theorem xorList_take (a b : List Nat) (n : Nat) :
    xorList (a.take n) (b.take n) = (xorList a b).take n := by
  simp [xorList, List.take_zipWith]

theorem xorList_take_right (a b : List Nat) :
    xorList a (b.take a.length) = xorList a b := by
  induction a generalizing b with
  | nil => simp [xorList]
  | cons x xs ih =>
    cases b with
    | nil => simp [xorList]
    | cons y ys => simpa [xorList] using ih ys

theorem xorList_comm (a b : List Nat) : xorList a b = xorList b a := by
  induction a generalizing b with
  | nil => cases b <;> simp [xorList]
  | cons x xs ih =>
    cases b with
    | nil => simp [xorList]
    | cons y ys => simpa [xorList, Nat.xor_comm] using ih ys

theorem xorList_take_left (a b : List Nat) :
    xorList (a.take b.length) b = xorList a b := by
  rw [xorList_comm, xorList_take_right, xorList_comm]

theorem xorList_assoc (a b c : List Nat) :
    xorList a (xorList b c) = xorList (xorList a b) c := by
  induction a generalizing b c with
  | nil => simp [xorList]
  | cons x xs ih =>
    cases b with
    | nil => simp [xorList]
    | cons y ys =>
      cases c with
      | nil => simp [xorList]
      | cons z zs => simpa [xorList, Nat.xor_assoc] using ih ys zs

/-- Reading a list through getD at consecutive positions recovers a
drop/take slice of the list. -/
theorem map_getD_range (l : List Nat) (k m : Nat) (h : k + m ≤ l.length) :
    (List.range m).map (fun i => l.getD (k + i) 0) = (l.drop k).take m := by
  induction m generalizing k with
  | zero => simp
  | succ m ih =>
    have hk : k < l.length := by omega
    rw [List.range_succ_eq_map]
    rw [List.map_cons, List.map_map]
    have h1 : ((fun i => l.getD (k + i) 0) ∘ Nat.succ)
        = fun i => l.getD ((k + 1) + i) 0 := by
      funext i
      have hki : k + Nat.succ i = (k + 1) + i := by omega
      simp [Function.comp, hki]
    rw [h1, ih (k + 1) (by omega)]
    have h2 : l.drop k = l[k] :: l.drop (k + 1) :=
      List.drop_eq_getElem_cons hk
    have h3 : l.getD (k + 0) 0 = l[k] := by
      simp [List.getD_eq_getElem?_getD, List.getElem?_eq_getElem hk]
    rw [h2, List.take_succ_cons, h3]

namespace Chacha

/-! ## chacha20/chacha/chacha_amd64.go

The assembly routines Core and XORBlocks are not part of src/, so the
keystream block function is abstracted: a parameter
core : Nat -> List Nat maps a 32-bit counter value to the 64-byte
keystream block that Core would produce for the fixed key, nonce and
round count.  The counter word wraps modulo 2^32 (spec section 3). -/

/-- The 32-bit counter word wraps modulo 2^32. -/
def u32 (n : Nat) : Nat := n % 4294967296

/-- The keystream byte at absolute stream position p, for starting
counter 0: position p lies in block p / 64 at offset p % 64. -/
def ksByte (core : Nat → List Nat) (p : Nat) : Nat :=
  (core (u32 (p / 64))).getD (p % 64) 0

/-- The keystream bytes at positions t, t+1, ..., t+len-1. -/
def ksBytes (core : Nat → List Nat) (t len : Nat) : List Nat :=
  (List.range len).map (fun i => ksByte core (t + i))

/-- Modelled from the spec: XORBlocks crypts the full 64-byte blocks of
src (len(src) - len(src) mod 64 bytes), each block XORed against the
keystream block of the current counter, incrementing the counter once
per block modulo 2^32.  This helper performs k blocks. -/
def xorBlocksGo (core : Nat → List Nat) : Nat → Nat → List Nat → List Nat × Nat
  | 0, ctr, _ => ([], ctr)
  | k + 1, ctr, src =>
      let r := xorBlocksGo core k (u32 (ctr + 1)) (src.drop 64)
      (xorList (src.take 64) (core ctr) ++ r.1, r.2)

/-- XORBlocks over all full 64-byte blocks of src; returns the crypted
full-block output and the new counter. -/
def xorBlocks (core : Nat → List Nat) (ctr : Nat) (src : List Nat) :
    List Nat × Nat :=
  xorBlocksGo core (src.length / 64) ctr src

/-- The one-shot XORKeyStream (chacha_amd64.go lines 18-53): full blocks
through XORBlocks, then one extra Core block for a trailing partial
chunk, of which only the needed prefix is used.  The expression
length & ^(64-1) of the source is 64 * (length / 64).  The guard
length >= 64 before XORBlocks is dropped because XORBlocks performs
zero blocks when length < 64. -/
def XORKeyStream (core : Nat → List Nat) (counter : Nat) (src : List Nat) :
    List Nat :=
  let a := xorBlocks core (u32 counter) src
  let n := 64 * (src.length / 64)
  if 0 < src.length - n then a.1 ++ xorList (src.drop n) (core a.2) else a.1

/-- The resumable Cipher state: the 32-bit counter word of the ChaCha
state (the only state word that changes), the last generated keystream
block, and the offset of already consumed bytes of that block. -/
structure Cipher where
  counter : Nat
  block : List Nat
  off : Nat
deriving DecidableEq, Repr

/-- NewCipher (chacha_amd64.go lines 57-79): counter word 0, zero block
buffer, offset 0. -/
def NewCipher : Cipher :=
  { counter := 0, block := List.replicate 64 0, off := 0 }

/-- The main part of Cipher.XORKeyStream (lines 101-109): full blocks,
then a trailing partial chunk from one fresh Core block, recording the
block and advancing off by the number of bytes the XOR helper consumed. -/
def cipherMain (core : Nat → List Nat) (c : Cipher) (src : List Nat) :
    List Nat × Cipher :=
  let a := xorBlocks core c.counter src
  let n := 64 * (src.length / 64)
  if 0 < src.length - n then
    let blk := core a.2
    (a.1 ++ xorList (src.drop n) blk,
      { counter := u32 (a.2 + 1), block := blk,
        off := c.off + min (src.length - n) blk.length })
  else (a.1, { c with counter := a.2 })

/-- Cipher.XORKeyStream (chacha_amd64.go lines 83-110): first consume
leftover bytes of the buffered keystream block, then the main part. -/
def cipherXKS (core : Nat → List Nat) (c : Cipher) (src : List Nat) :
    List Nat × Cipher :=
  if 0 < c.off then
    let ks := c.block.drop c.off
    let n := min src.length ks.length
    let out1 := xorList src ks
    if n = src.length then (out1, { c with off := c.off + n })
    else
      let r := cipherMain core { c with off := 0 } (src.drop n)
      (out1 ++ r.1, r.2)
  else cipherMain core c src

/-- Feeding a sequence of chunks through successive XORKeyStream calls,
concatenating the outputs. -/
def feedChunks (core : Nat → List Nat) (c : Cipher) :
    List (List Nat) → List Nat × Cipher
  | [] => ([], c)
  | s :: rest =>
      let r := cipherXKS core c s
      let r2 := feedChunks core r.2 rest
      (r.1 ++ r2.1, r2.2)

/-- A concrete keystream block function used for witnesses. -/
def coreDemo : Nat → List Nat := fun _ => List.range 64

theorem ksBytes_length (core : Nat → List Nat) (t len : Nat) :
    (ksBytes core t len).length = len := by
  simp [ksBytes]

theorem ksBytes_append (core : Nat → List Nat) (t a b : Nat) :
    ksBytes core t (a + b) = ksBytes core t a ++ ksBytes core (t + a) b := by
  unfold ksBytes
  rw [List.range_add, List.map_append, List.map_map]
  congr 1
  apply List.map_congr_left
  intro i hi
  simp only [Function.comp]
  congr 1
  omega

/-- Within one keystream block, ksBytes is a slice of that block. -/
theorem ksBytes_slice (core : Nat → List Nat)
    (hcore : ∀ n, (core n).length = 64) (t m : Nat)
    (hm : t % 64 + m ≤ 64) :
    ksBytes core t m = ((core (u32 (t / 64))).drop (t % 64)).take m := by
  unfold ksBytes
  have h1 : ∀ i ∈ List.range m,
      ksByte core (t + i) = (core (u32 (t / 64))).getD (t % 64 + i) 0 := by
    intro i hi
    have hi' : i < m := List.mem_range.mp hi
    unfold ksByte
    have hdiv : (t + i) / 64 = t / 64 := by omega
    have hmod : (t + i) % 64 = t % 64 + i := by omega
    rw [hdiv, hmod]
  rw [List.map_congr_left h1]
  exact map_getD_range _ _ _ (by rw [hcore]; omega)

theorem u32_add_one (a : Nat) : u32 (u32 a + 1) = u32 (a + 1) := by
  unfold u32
  omega

theorem xorBlocksGo_spec (core : Nat → List Nat)
    (hcore : ∀ n, (core n).length = 64) :
    ∀ (k t : Nat) (src : List Nat), t % 64 = 0 → 64 * k ≤ src.length →
    xorBlocksGo core k (u32 (t / 64)) src
      = (xorList (src.take (64 * k)) (ksBytes core t (64 * k)),
          u32 (t / 64 + k)) := by
  intro k
  induction k with
  | zero =>
    intro t src ht hk
    simp [xorBlocksGo, ksBytes, xorList]
  | succ k ih =>
    intro t src ht hk
    have h64 : 64 ≤ src.length := by omega
    have hmod : (t + 64) % 64 = 0 := by omega
    have hdiv : (t + 64) / 64 = t / 64 + 1 := by omega
    have hrec := ih (t + 64) (src.drop 64) hmod
      (by rw [List.length_drop]; omega)
    rw [hdiv] at hrec
    simp only [xorBlocksGo, u32_add_one, hrec]
    rw [Prod.mk.injEq]
    constructor
    · have hsplit : 64 * (k + 1) = 64 + 64 * k := by ring
      rw [hsplit, List.take_add, ksBytes_append]
      rw [xorList_append _ _
        (by rw [List.length_take, ksBytes_length]; omega)]
      have hblock : ksBytes core t 64 = core (u32 (t / 64)) := by
        rw [ksBytes_slice core hcore t 64 (by omega), ht, List.drop_zero]
        exact List.take_of_length_le (by rw [hcore])
      rw [hblock]
    · congr 1
      omega

theorem xorBlocks_spec (core : Nat → List Nat)
    (hcore : ∀ n, (core n).length = 64) (t : Nat) (src : List Nat)
    (ht : t % 64 = 0) :
    xorBlocks core (u32 (t / 64)) src
      = (xorList (src.take (64 * (src.length / 64)))
            (ksBytes core t (64 * (src.length / 64))),
          u32 (t / 64 + src.length / 64)) :=
  xorBlocksGo_spec core hcore (src.length / 64) t src ht (by omega)

/-- The invariant tying a resumable Cipher state to the absolute
keystream position t (number of keystream bytes consumed so far).
At an exact block boundary the offset is 0 or 64 and the counter points
at the next block; in mid-block the offset equals the in-block position,
the counter is already one past the current block, and the buffered
block is the current block. -/
def Coherent (core : Nat → List Nat) (c : Cipher) (t : Nat) : Prop :=
  c.block.length = 64 ∧
    (if t % 64 = 0 then
        (c.off = 0 ∨ c.off = 64) ∧ c.counter = u32 (t / 64)
      else
        c.off = t % 64 ∧ c.counter = u32 (t / 64 + 1) ∧
          c.block = core (u32 (t / 64)))

theorem cipherMain_spec (core : Nat → List Nat)
    (hcore : ∀ n, (core n).length = 64) (c : Cipher) (t : Nat)
    (src : List Nat) (ht : t % 64 = 0) (hctr : c.counter = u32 (t / 64))
    (hoff : c.off = 0) (hblk : c.block.length = 64) :
    (cipherMain core c src).1 = xorList src (ksBytes core t src.length) ∧
      Coherent core (cipherMain core c src).2 (t + src.length) := by
  have hxb := xorBlocks_spec core hcore t src ht
  by_cases hrem : 0 < src.length - 64 * (src.length / 64)
  · simp only [cipherMain, hctr, hxb, if_pos hrem]
    have hn : 64 * (src.length / 64) ≤ src.length := by omega
    have htn : (t + 64 * (src.length / 64)) % 64 = 0 := by omega
    have hdn : (t + 64 * (src.length / 64)) / 64
        = t / 64 + src.length / 64 := by omega
    have hpart : ksBytes core (t + 64 * (src.length / 64))
          (src.length - 64 * (src.length / 64))
        = (core (u32 (t / 64 + src.length / 64))).take
            (src.length - 64 * (src.length / 64)) := by
      rw [ksBytes_slice core hcore _ _ (by omega), htn, hdn, List.drop_zero]
    constructor
    · calc xorList (src.take (64 * (src.length / 64)))
            (ksBytes core t (64 * (src.length / 64)))
          ++ xorList (src.drop (64 * (src.length / 64)))
            (core (u32 (t / 64 + src.length / 64)))
          = xorList (src.take (64 * (src.length / 64)))
              (ksBytes core t (64 * (src.length / 64)))
            ++ xorList (src.drop (64 * (src.length / 64)))
              (ksBytes core (t + 64 * (src.length / 64))
                (src.length - 64 * (src.length / 64))) := by
            rw [hpart]
            congr 1
            have hlen : (List.drop (64 * (src.length / 64)) src).length
                = src.length - 64 * (src.length / 64) := List.length_drop _ _
            rw [← hlen]
            exact (xorList_take_right _ _).symm
          _ = xorList
              (src.take (64 * (src.length / 64))
                ++ src.drop (64 * (src.length / 64)))
              (ksBytes core t (64 * (src.length / 64))
                ++ ksBytes core (t + 64 * (src.length / 64))
                  (src.length - 64 * (src.length / 64))) := by
            rw [xorList_append _ _
              (by rw [List.length_take, ksBytes_length]; omega)]
          _ = xorList src (ksBytes core t src.length) := by
            rw [List.take_append_drop, ← ksBytes_append]
            congr 2
            omega
    · refine ⟨hcore _, ?_⟩
      rw [if_neg (by omega : ¬ (t + src.length) % 64 = 0)]
      refine ⟨?_, ?_, ?_⟩
      · show c.off + min (src.length - 64 * (src.length / 64))
            (core (u32 (t / 64 + src.length / 64))).length
          = (t + src.length) % 64
        rw [hoff, hcore]
        omega
      · show u32 (u32 (t / 64 + src.length / 64) + 1) = _
        rw [u32_add_one]
        congr 2
        omega
      · show core (u32 (t / 64 + src.length / 64))
          = core (u32 ((t + src.length) / 64))
        congr 2
        omega
  · simp only [cipherMain, hctr, hxb, if_neg hrem]
    have hn : 64 * (src.length / 64) = src.length := by omega
    constructor
    · rw [hn, List.take_length]
    · refine ⟨hblk, ?_⟩
      rw [if_pos (by omega : (t + src.length) % 64 = 0)]
      refine ⟨Or.inl hoff, ?_⟩
      show u32 (t / 64 + src.length / 64) = u32 ((t + src.length) / 64)
      congr 1
      omega

theorem cipherXKS_spec (core : Nat → List Nat)
    (hcore : ∀ n, (core n).length = 64) (c : Cipher) (t : Nat)
    (src : List Nat) (h : Coherent core c t) :
    (cipherXKS core c src).1 = xorList src (ksBytes core t src.length) ∧
      Coherent core (cipherXKS core c src).2 (t + src.length) := by
  obtain ⟨hblk, hrest⟩ := h
  by_cases ht : t % 64 = 0
  · rw [if_pos ht] at hrest
    obtain ⟨hoff, hctr⟩ := hrest
    rcases hoff with h0 | h64
    · have hno : ¬ 0 < c.off := by omega
      simp only [cipherXKS, if_neg hno]
      exact cipherMain_spec core hcore c t src ht hctr h0 hblk
    · have hpos : 0 < c.off := by omega
      have hks : c.block.drop c.off = [] := by
        rw [h64, ← hblk, List.drop_length]
      simp only [cipherXKS, if_pos hpos, hks, List.length_nil, Nat.min_zero,
        xorList_nil_right, List.drop_zero, List.nil_append]
      by_cases hL : 0 = src.length
      · rw [if_pos hL]
        have hsrc : src = [] := List.length_eq_zero.mp hL.symm
        subst hsrc
        refine ⟨by simp [xorList, ksBytes], ⟨hblk, ?_⟩⟩
        rw [if_pos (by omega : (t + ([] : List Nat).length) % 64 = 0)]
        exact ⟨Or.inr (by simpa using h64),
          by simpa using hctr⟩
      · rw [if_neg hL]
        exact cipherMain_spec core hcore { c with off := 0 } t src ht hctr
          rfl hblk
  · rw [if_neg ht] at hrest
    obtain ⟨hoff, hctr, hbeq⟩ := hrest
    have hpos : 0 < c.off := by omega
    have hkslen : (c.block.drop c.off).length = 64 - t % 64 := by
      rw [List.length_drop, hblk, hoff]
    simp only [cipherXKS, if_pos hpos]
    by_cases hn : min src.length (c.block.drop c.off).length = src.length
    · rw [if_pos hn]
      have hn' := hn
      rw [hkslen] at hn'
      constructor
      · have hsl : ksBytes core t src.length
            = ((core (u32 (t / 64))).drop (t % 64)).take src.length :=
          ksBytes_slice core hcore t src.length (by omega)
        rw [hsl, ← hbeq, ← hoff]
        exact (xorList_take_right _ _).symm
      · refine ⟨hblk, ?_⟩
        by_cases hfull : t % 64 + src.length = 64
        · rw [if_pos (by omega : (t + src.length) % 64 = 0)]
          refine ⟨Or.inr ?_, ?_⟩
          · show c.off + min src.length (c.block.drop c.off).length = 64
            rw [hkslen, hoff]
            omega
          · show c.counter = u32 ((t + src.length) / 64)
            rw [hctr]
            congr 1
            omega
        · rw [if_neg (by omega : ¬ (t + src.length) % 64 = 0)]
          refine ⟨?_, ?_, ?_⟩
          · show c.off + min src.length (c.block.drop c.off).length
              = (t + src.length) % 64
            rw [hkslen, hoff]
            omega
          · show c.counter = u32 ((t + src.length) / 64 + 1)
            rw [hctr]
            congr 1
            omega
          · show c.block = core (u32 ((t + src.length) / 64))
            rw [hbeq]
            congr 2
            omega
    · rw [if_neg hn]
      have hn' := hn
      rw [hkslen] at hn'
      have hmn : min src.length (c.block.drop c.off).length
          = 64 - t % 64 := by
        rw [hkslen]
        omega
      rw [hmn]
      have ht' : (t + (64 - t % 64)) % 64 = 0 := by omega
      have hctr' : ({ c with off := 0 } : Cipher).counter
          = u32 ((t + (64 - t % 64)) / 64) := by
        show c.counter = _
        rw [hctr]
        congr 1
        omega
      have hmain := cipherMain_spec core hcore { c with off := 0 }
        (t + (64 - t % 64)) (src.drop (64 - t % 64)) ht' hctr' rfl hblk
      have hdlen : (src.drop (64 - t % 64)).length
          = src.length - (64 - t % 64) := List.length_drop _ _
      constructor
      · have e1 : xorList src (c.block.drop c.off)
            = xorList (src.take (64 - t % 64))
                (ksBytes core t (64 - t % 64)) := by
          have hsl : ksBytes core t (64 - t % 64)
              = ((core (u32 (t / 64))).drop (t % 64)).take (64 - t % 64) :=
            ksBytes_slice core hcore t _ (by omega)
          rw [hsl, ← hbeq, ← hoff]
          have hlen2 : (c.block.drop c.off).length = 64 - c.off := by
            rw [hkslen, hoff]
          rw [← hlen2, List.take_length, xorList_take_left]
        rw [hmain.1, hdlen, e1]
        rw [← xorList_append _ _
          (by rw [List.length_take, ksBytes_length]; omega)]
        rw [List.take_append_drop, ← ksBytes_append]
        have hLsum : 64 - t % 64 + (src.length - (64 - t % 64))
            = src.length := by omega
        rw [hLsum]
      · have hcoh := hmain.2
        rw [hdlen] at hcoh
        have harg : t + (64 - t % 64) + (src.length - (64 - t % 64))
            = t + src.length := by omega
        rwa [harg] at hcoh

theorem feedChunks_spec (core : Nat → List Nat)
    (hcore : ∀ n, (core n).length = 64) :
    ∀ (chunks : List (List Nat)) (c : Cipher) (t : Nat),
      Coherent core c t →
      (feedChunks core c chunks).1
          = xorList chunks.flatten
              (ksBytes core t chunks.flatten.length) ∧
        Coherent core (feedChunks core c chunks).2
          (t + chunks.flatten.length) := by
  intro chunks
  induction chunks with
  | nil =>
    intro c t h
    exact ⟨by simp [feedChunks, xorList], by simpa [feedChunks] using h⟩
  | cons s rest ih =>
    intro c t h
    have h1 := cipherXKS_spec core hcore c t s h
    have h2 := ih (cipherXKS core c s).2 (t + s.length) h1.2
    simp only [feedChunks]
    constructor
    · rw [h1.1, h2.1, List.flatten_cons]
      rw [← xorList_append _ _ (by rw [ksBytes_length])]
      rw [← ksBytes_append, List.length_append]
    · rw [List.flatten_cons, List.length_append, ← Nat.add_assoc]
      exact h2.2

theorem newCipher_coherent (core : Nat → List Nat) :
    Coherent core NewCipher 0 := by
  refine ⟨by simp [NewCipher], ?_⟩
  rw [if_pos (by omega : (0 : Nat) % 64 = 0)]
  exact ⟨Or.inl rfl, by simp [NewCipher, u32]⟩

theorem oneShot_eq_main (core : Nat → List Nat) (src : List Nat) :
    XORKeyStream core 0 src = (cipherMain core NewCipher src).1 := by
  by_cases hr : 0 < src.length - 64 * (src.length / 64) <;>
    simp [XORKeyStream, cipherMain, NewCipher, u32, hr]

/-- Claim C3: a resumable cipher created by NewCipher and fed any
sequence of chunks produces output byte-for-byte identical to a single
one-shot XORKeyStream call with starting counter 0 over the
concatenation of the chunks; in particular the output does not depend
on the split points. -/
theorem chunk_independence (core : Nat → List Nat)
    (hcore : ∀ n, (core n).length = 64) (chunks : List (List Nat)) :
    (feedChunks core NewCipher chunks).1
      = XORKeyStream core 0 chunks.flatten := by
  have hfeed := feedChunks_spec core hcore chunks NewCipher 0
    (newCipher_coherent core)
  have hmain := cipherMain_spec core hcore NewCipher 0 chunks.flatten
    (by omega) (by simp [NewCipher, u32]) rfl (by simp [NewCipher])
  rw [hfeed.1, oneShot_eq_main, hmain.1]

/-- Witness for C3 at a concrete keystream function and chunk split. -/
theorem chunk_independence_witness :
    (∀ n, (coreDemo n).length = 64) ∧
      (feedChunks coreDemo NewCipher [[1, 2, 3], [4, 5]]).1
        = XORKeyStream coreDemo 0 ([[1, 2, 3], [4, 5]] :
            List (List Nat)).flatten :=
  ⟨fun _ => rfl,
    chunk_independence coreDemo (fun _ => rfl) [[1, 2, 3], [4, 5]]⟩

/-- Claim C7 counterexample: the offset 64 is reachable, so the claim
that the stored offset always lies in 0..63 is false.  A 65-byte call
leaves offset 1; a following 63-byte call consumes exactly the rest of
the buffered block and leaves offset 64. -/
theorem off_reaches_64 :
    (feedChunks coreDemo NewCipher
        [List.replicate 65 0, List.replicate 63 0]).2.off = 64 := by
  decide

/-- Claim C7 (amended): for every reachable state of a resumable cipher,
the stored offset lies in the range 0 to 64 inclusive. -/
theorem off_le_64 (core : Nat → List Nat)
    (hcore : ∀ n, (core n).length = 64) (chunks : List (List Nat)) :
    (feedChunks core NewCipher chunks).2.off ≤ 64 := by
  have h := (feedChunks_spec core hcore chunks NewCipher 0
    (newCipher_coherent core)).2
  obtain ⟨-, h2⟩ := h
  by_cases ht : (0 + chunks.flatten.length) % 64 = 0
  · rw [if_pos ht] at h2
    omega
  · rw [if_neg ht] at h2
    omega

/-- Witness for the amended C7 at a concrete keystream function. -/
theorem off_le_64_witness :
    (∀ n, (coreDemo n).length = 64) ∧
      (feedChunks coreDemo NewCipher [[7, 7, 7]]).2.off ≤ 64 :=
  ⟨fun _ => rfl, off_le_64 coreDemo (fun _ => rfl) [[7, 7, 7]]⟩

end Chacha

namespace Eax

/-! ## cipher/eax.go

The injected block cipher is modelled as a function
encrypt : List Nat -> List Nat from one block (the counter register) to
one block, and the CMAC instance (package crypto/cmac, not under src/)
as a function mac : List Nat -> List Nat from the full written byte
stream to the digest.  Modelled from the spec: CMAC has block-sized
output, and its Size() and BlockSize() both equal the block size of the
underlying cipher; writing in several pieces and then taking Sum is the
digest of the concatenation, and Reset starts a fresh computation. -/

/-- The nonce tag constant (eax.go line 20). -/
def nTag : Nat := 0x0

/-- The additional data tag constant (eax.go line 21). -/
def hTag : Nat := 0x1

/-- The ciphertext tag constant (eax.go line 22). -/
def cTag : Nat := 0x2

/-- The immutable part of an eaxCipher: block cipher, its block size,
the CMAC function and the configured tag size. -/
structure EaxCipher where
  encrypt : List Nat → List Nat
  bs : Nat
  mac : List Nat → List Nat
  size : Nat

/-- The mutable scratch buffers of an eaxCipher: the counter register
ctr and the keystream register block. -/
structure EaxState where
  ctr : List Nat
  block : List Nat
deriving DecidableEq, Repr

/-- Go copy(dst, src): the first min(len(dst), len(src)) bytes come from
src, the rest of dst is unchanged; the length of dst is unchanged. -/
def copyInto (dst src : List Nat) : List Nat :=
  src.take dst.length ++ dst.drop src.length

/-- The Go expression length & (^(length - bs)) of eax.go line 161, on
64-bit two's-complement ints: for length >= bs the complement of
length - bs is (2^64 - 1) XOR (length - bs); for length < bs the value
length - bs is negative, say -k, and its complement is k - 1. -/
def goAndNot (length bs : Nat) : Nat :=
  if bs ≤ length then Nat.land length (Nat.xor (2 ^ 64 - 1) (length - bs))
  else Nat.land length (bs - length - 1)

/-- Big-endian increment with carry on the reversed byte list
(eax.go lines 169-174): increment the first byte; on wrap to zero
continue with the next. -/
def incLE : List Nat → List Nat
  | [] => []
  | b :: rest =>
      if (b + 1) % 256 = 0 then (b + 1) % 256 :: incLE rest
      else (b + 1) % 256 :: rest

/-- The counter register increment of ctrCrypt: big-endian, carry
propagating from the last byte leftward. -/
def incCtr (l : List Nat) : List Nat :=
  (incLE l.reverse).reverse

/-- The full-block loop of ctrCrypt (eax.go lines 163-175): k
iterations; each encrypts the counter register into the keystream
register, XORs one block-size chunk, and increments the register.
Returns (output bytes, final counter register, final keystream
register). -/
def ctrBlocks (encrypt : List Nat → List Nat) (bs : Nat) :
    Nat → List Nat → List Nat → List Nat → List Nat × List Nat × List Nat
  | 0, ctr, blk, _ => ([], ctr, blk)
  | k + 1, ctr, _, src =>
      let b := encrypt ctr
      let r := ctrBlocks encrypt bs k (incCtr ctr) b (src.drop bs)
      (xorList (src.take bs) b ++ r.1, r.2)

/-- ctrCrypt (eax.go lines 158-181): n := length & ^(length - bs) bytes
are processed in full-block chunks, then, if n < length, one final
chunk is XORed against a single extra keystream block, the XOR helper
consuming min(length - n, blockSize) bytes.  Returns the new dst
contents (bytes past the written region keep their old dst values), the
final counter register and the final keystream register. -/
def ctrCrypt (encrypt : List Nat → List Nat) (bs : Nat)
    (ctr blk dst src : List Nat) : List Nat × List Nat × List Nat :=
  let length := src.length
  let n := goAndNot length bs
  let r := ctrBlocks encrypt bs ((n + bs - 1) / bs) ctr blk (src.take n)
  if n < length then
    let b := encrypt r.2.1
    let w := r.1 ++ xorList (src.drop n) b
    (w ++ dst.drop w.length, r.2.1, b)
  else (r.1 ++ dst.drop r.1.length, r.2.1, r.2.2)

/-- The domain-separation block (eax.go lines 69-91): a block of zeroes
whose last byte is set to the domain tag. -/
def domainBlock (bs t : Nat) : List Nat :=
  (List.replicate bs 0).set (bs - 1) t

/-- One domain-tagged MAC evaluation: write the domain block, write the
payload, take the digest. -/
def eaxAuth (E : EaxCipher) (t : Nat) (payload : List Nat) : List Nat :=
  E.mac (domainBlock E.bs t ++ payload)

/-- The combined tag before truncation (eax.go lines 97-99 and 140-142):
the ciphertext MAC XORed byte-wise with the data MAC and the nonce
MAC. -/
def eaxTag (E : EaxCipher) (nonce body ad : List Nat) : List Nat :=
  xorList (eaxAuth E cTag body)
    (xorList (eaxAuth E hTag ad) (eaxAuth E nTag nonce))

/-- eaxCipher.Seal (eax.go lines 61-101).  none models the panics on a
wrong-size nonce or an undersized dst.  The counter register is seeded
by copy(c.ctr, authNonce), the plaintext is encrypted with ctrCrypt,
and the result is dst[:n] followed by the truncated tag. -/
def eaxSeal (E : EaxCipher) (st : EaxState) (dst nonce plaintext ad : List Nat) :
    Option (List Nat × EaxState) :=
  if nonce.length = E.bs then
    if dst.length < plaintext.length then none
    else
      let authNonce := eaxAuth E nTag nonce
      let n := plaintext.length
      let ctr0 := copyInto st.ctr authNonce
      let r := ctrCrypt E.encrypt E.bs ctr0 st.block dst plaintext
      some (r.1.take n ++ (eaxTag E nonce (r.1.take n) ad).take E.size,
        ⟨r.2.1, r.2.2⟩)
  else none

/-- The error outcomes of Open: a wrong-size nonce
(crypto.NonceSizeError), an authentication failure
(crypto.AuthenticationError), and the dst-too-small panic. -/
inductive EaxErr where
  | nonceSize : EaxErr
  | auth : EaxErr
  | dstSmall : EaxErr
deriving DecidableEq, Repr

instance : DecidableEq (Except EaxErr (List Nat)) := fun a b =>
  match a, b with
  | .ok x, .ok y =>
      match decEq x y with
      | isTrue h => isTrue (h ▸ rfl)
      | isFalse h => isFalse (fun hh => h (Except.ok.inj hh))
  | .error x, .error y =>
      match decEq x y with
      | isTrue h => isTrue (h ▸ rfl)
      | isFalse h => isFalse (fun hh => h (Except.error.inj hh))
  | .ok _, .error _ => isFalse (fun hh => Except.noConfusion hh)
  | .error _, .ok _ => isFalse (fun hh => Except.noConfusion hh)

/-- eaxCipher.Open (eax.go lines 103-154).  The dst length check on
line 110 compares against len(ciphertext) - c.mac.Size(), and
c.mac.Size() is the block size.  The received tag is the last size
bytes, the recomputed tag is compared with it (constant-time comparison
is equality of the two same-length byte strings), and only on a match
is the body decrypted with ctrCrypt. -/
def eaxOpen (E : EaxCipher) (st : EaxState) (dst nonce ciphertext ad : List Nat) :
    (Except EaxErr (List Nat)) × EaxState :=
  if nonce.length = E.bs then
    if ciphertext.length < E.size then (.error .auth, st)
    else if dst.length < ciphertext.length - E.bs then (.error .dstSmall, st)
    else
      let hash := ciphertext.drop (ciphertext.length - E.size)
      let body := ciphertext.take (ciphertext.length - E.size)
      if (eaxTag E nonce body ad).take E.size = hash then
        let authNonce := eaxAuth E nTag nonce
        let ctr0 := copyInto st.ctr authNonce
        let r := ctrCrypt E.encrypt E.bs ctr0 st.block dst body
        (.ok (r.1.take body.length), ⟨r.2.1, r.2.2⟩)
      else (.error .auth, st)
  else (.error .nonceSize, st)

/-- NewEAX (eax.go lines 40-55): macOk models whether cmac.New accepts
the block cipher; then the tag size must lie in [1, BlockSize]; the
scratch buffers start as zero blocks. -/
def NewEAX (macOk : Bool) (encrypt mac : List Nat → List Nat)
    (bs tagsize : Nat) : Option (EaxCipher × EaxState) :=
  if macOk then
    if tagsize < 1 ∨ tagsize > bs then none
    else some ({ encrypt := encrypt, bs := bs, mac := mac, size := tagsize },
      ⟨List.replicate bs 0, List.replicate bs 0⟩)
  else none

/-- Counter-mode XOR as claim C2 describes it: every byte of src is
XORed against the concatenation of successive keystream blocks
E(ctr), E(ctr+1), ..., one block per started block-size chunk, with the
big-endian increment between blocks; of the last block only the needed
prefix is used. -/
def ctrKeystream (encrypt : List Nat → List Nat) :
    Nat → List Nat → List Nat
  | 0, _ => []
  | k + 1, ctr => encrypt ctr ++ ctrKeystream encrypt k (incCtr ctr)

/-- The claim-side counter-mode contract for C2. -/
def ctrSpecXOR (encrypt : List Nat → List Nat) (bs : Nat)
    (ctr src : List Nat) : List Nat :=
  xorList src (ctrKeystream encrypt ((src.length + bs - 1) / bs) ctr)

theorem copyInto_length (dst src : List Nat) :
    (copyInto dst src).length = dst.length := by
  simp only [copyInto, List.length_append, List.length_take,
    List.length_drop]
  omega

theorem copyInto_full (dst src : List Nat) (h : src.length = dst.length) :
    copyInto dst src = src := by
  unfold copyInto
  rw [← h, List.take_length, h, List.drop_length, List.append_nil]

theorem incLE_length (l : List Nat) : (incLE l).length = l.length := by
  induction l with
  | nil => rfl
  | cons b rest ih =>
    by_cases hb : (b + 1) % 256 = 0
    · simp [incLE, hb, ih]
    · simp [incLE, hb]

theorem incCtr_length (l : List Nat) : (incCtr l).length = l.length := by
  simp [incCtr, incLE_length]

theorem ctrBlocks_ctr_length (e : List Nat → List Nat) (bs : Nat) :
    ∀ (k : Nat) (ctr blk src : List Nat),
      (ctrBlocks e bs k ctr blk src).2.1.length = ctr.length := by
  intro k
  induction k with
  | zero => intro ctr blk src; rfl
  | succ k ih =>
    intro ctr blk src
    simp only [ctrBlocks]
    rw [ih, incCtr_length]

theorem ctrCrypt_ctr_length (e : List Nat → List Nat) (bs : Nat)
    (ctr blk dst src : List Nat) :
    (ctrCrypt e bs ctr blk dst src).2.1.length = ctr.length := by
  by_cases hc : goAndNot src.length bs < src.length
  · simp only [ctrCrypt, if_pos hc]
    exact ctrBlocks_ctr_length e bs _ ctr blk _
  · simp only [ctrCrypt, if_neg hc]
    exact ctrBlocks_ctr_length e bs _ ctr blk _

theorem ctrBlocks_blk_irrel (e : List Nat → List Nat) (bs : Nat)
    (k : Nat) (ctr b1 b2 src : List Nat) :
    (ctrBlocks e bs k ctr b1 src).1 = (ctrBlocks e bs k ctr b2 src).1 ∧
      (ctrBlocks e bs k ctr b1 src).2.1
        = (ctrBlocks e bs k ctr b2 src).2.1 := by
  cases k with
  | zero => exact ⟨rfl, rfl⟩
  | succ k => exact ⟨rfl, rfl⟩

theorem ctrCrypt_blk_irrel (e : List Nat → List Nat) (bs : Nat)
    (ctr b1 b2 dst src : List Nat) :
    (ctrCrypt e bs ctr b1 dst src).1 = (ctrCrypt e bs ctr b2 dst src).1 ∧
      (ctrCrypt e bs ctr b1 dst src).2.1
        = (ctrCrypt e bs ctr b2 dst src).2.1 := by
  obtain ⟨hA, hB⟩ := ctrBlocks_blk_irrel e bs
    ((goAndNot src.length bs + bs - 1) / bs) ctr b1 b2
    (src.take (goAndNot src.length bs))
  by_cases hc : goAndNot src.length bs < src.length
  · simp only [ctrCrypt, if_pos hc]
    rw [hA, hB]
    exact ⟨rfl, rfl⟩
  · simp only [ctrCrypt, if_neg hc]
    rw [hA, hB]
    exact ⟨rfl, rfl⟩

theorem domainBlock_eq (bs t : Nat) (h : 1 ≤ bs) :
    domainBlock bs t = List.replicate (bs - 1) 0 ++ [t] := by
  obtain ⟨m, rfl⟩ : ∃ m, bs = m + 1 := ⟨bs - 1, by omega⟩
  clear h
  simp only [domainBlock, Nat.add_sub_cancel]
  induction m with
  | zero => simp
  | succ m ih =>
    rw [List.replicate_succ, List.set_cons_succ, ih]
    simp [List.replicate_succ]

theorem xorTag_comm (aN aD aC : List Nat) :
    xorList aC (xorList aD aN) = xorList (xorList aN aD) aC := by
  rw [xorList_comm aC (xorList aD aN), xorList_comm aD aN]

/-- A concrete instance for the counterexamples and witnesses: the
identity permutation as a 16-byte block cipher, a constant block-sized
MAC, tag size 16. -/
def demoE : EaxCipher :=
  { encrypt := fun b => b, bs := 16,
    mac := fun _ => List.replicate 16 0, size := 16 }

/-- Fresh scratch state for a 16-byte block size. -/
def demoSt : EaxState := ⟨List.replicate 16 0, List.replicate 16 0⟩

/-- Same instance as demoE but with tag size 1. -/
def demoE1 : EaxCipher :=
  { encrypt := fun b => b, bs := 16,
    mac := fun _ => List.replicate 16 0, size := 1 }

/-- The result of sealing 48 bytes of 0x07 with demoE, an all-zero
16-byte nonce, empty associated data and an all-zero 48-byte dst. -/
def demoSealRes : List Nat × EaxState :=
  (eaxSeal demoE demoSt (List.replicate 48 0) (List.replicate 16 0)
    (List.replicate 48 7) []).getD ([], demoSt)

/-- Claim C1 (code bug): Open on the output of Seal does not return the
original plaintext for a 48-byte plaintext with a 16-byte-block cipher.
ctrCrypt computes n = length AND NOT (length - blockSize) = 16 instead
of 48, so bytes 32..47 of dst are never written: Seal emits the stale
dst bytes there, the tag authenticates them, and Open succeeds but
returns the plaintext with bytes 32..47 replaced. -/
theorem roundtrip_fails_48 :
    (eaxOpen demoE demoSealRes.2 (List.replicate 48 0)
        (List.replicate 16 0) demoSealRes.1 []).1
      = .ok (List.replicate 32 7 ++ List.replicate 16 0) ∧
    (List.replicate 32 7 ++ List.replicate 16 0 : List Nat)
      ≠ List.replicate 48 7 := by
  decide

/-- Claim C2 (code bug): on a 48-byte src with a 16-byte block size,
ctrCrypt does not XOR all of src: n = 48 AND NOT 32 = 16, so it runs
one full-block chunk plus one partial-block chunk of 16 bytes and
leaves the last 16 bytes of dst untouched, diverging from the
counter-mode contract. -/
theorem ctrCrypt_misses_bytes :
    (ctrCrypt demoE.encrypt 16 (List.replicate 16 0) (List.replicate 16 0)
        (List.replicate 48 0) (List.replicate 48 7)).1
      ≠ ctrSpecXOR demoE.encrypt 16 (List.replicate 16 0)
          (List.replicate 48 7) := by
  decide

/-- Claim C4: for every valid Seal call, the returned value is the
ciphertext body of plaintext length followed by the tag, and the tag is
the XOR of the three MACs over a block of zeroes ending in the domain
byte 0, 1, 2 followed by the nonce, the associated data and the
ciphertext body respectively, truncated to the tag size. -/
theorem seal_tag_structure (E : EaxCipher) (st : EaxState)
    (dst nonce pt ad : List Nat) (hbs : 1 ≤ E.bs)
    (h1 : nonce.length = E.bs) (h2 : pt.length ≤ dst.length)
    (hm : ∀ m, (E.mac m).length = E.bs) (hst : st.ctr.length = E.bs) :
    (eaxSeal E st dst nonce pt ad).map Prod.fst
      = some ((ctrCrypt E.encrypt E.bs
            (E.mac (List.replicate (E.bs - 1) 0 ++ [0] ++ nonce)) st.block
            dst pt).1.take pt.length
          ++ (xorList
                (xorList
                  (E.mac (List.replicate (E.bs - 1) 0 ++ [0] ++ nonce))
                  (E.mac (List.replicate (E.bs - 1) 0 ++ [1] ++ ad)))
                (E.mac (List.replicate (E.bs - 1) 0 ++ [2]
                  ++ (ctrCrypt E.encrypt E.bs
                      (E.mac (List.replicate (E.bs - 1) 0 ++ [0] ++ nonce))
                      st.block dst pt).1.take pt.length))).take E.size) := by
  have hN : eaxAuth E nTag nonce
      = E.mac (List.replicate (E.bs - 1) 0 ++ [0] ++ nonce) := by
    rw [eaxAuth, domainBlock_eq _ _ hbs]
    rfl
  have hD : eaxAuth E hTag ad
      = E.mac (List.replicate (E.bs - 1) 0 ++ [1] ++ ad) := by
    rw [eaxAuth, domainBlock_eq _ _ hbs]
    rfl
  have hC : ∀ body, eaxAuth E cTag body
      = E.mac (List.replicate (E.bs - 1) 0 ++ [2] ++ body) := by
    intro body
    rw [eaxAuth, domainBlock_eq _ _ hbs]
    rfl
  have hcopy : copyInto st.ctr (eaxAuth E nTag nonce)
      = eaxAuth E nTag nonce := by
    refine copyInto_full _ _ ?_
    rw [hst]
    exact hm _
  simp only [eaxSeal, if_pos h1, if_neg (Nat.not_lt.mpr h2),
    Option.map_some']
  rw [hcopy]
  unfold eaxTag
  rw [xorTag_comm, hN, hD, hC]

/-- Claim C5: with the preconditions of Open satisfied, a mismatch of
the recomputed truncated tag against the received tag makes Open fail
with the authentication error and leave the scratch state untouched
(no counter-mode decryption happens), and any successful Open implies
the tags matched and the returned bytes are exactly the counter-mode
decryption of the ciphertext body. -/
theorem open_auth_gate (E : EaxCipher) (st : EaxState)
    (dst nonce ct ad : List Nat) (h1 : nonce.length = E.bs)
    (h2 : E.size ≤ ct.length) (h3 : ct.length - E.bs ≤ dst.length) :
    ((eaxTag E nonce (ct.take (ct.length - E.size)) ad).take E.size
        ≠ ct.drop (ct.length - E.size) →
      eaxOpen E st dst nonce ct ad = (.error .auth, st)) ∧
    (∀ out stF, eaxOpen E st dst nonce ct ad = (.ok out, stF) →
      (eaxTag E nonce (ct.take (ct.length - E.size)) ad).take E.size
          = ct.drop (ct.length - E.size) ∧
        out = (ctrCrypt E.encrypt E.bs
            (copyInto st.ctr (eaxAuth E nTag nonce)) st.block dst
            (ct.take (ct.length - E.size))).1.take
              (ct.take (ct.length - E.size)).length) := by
  have hno2 : ¬ ct.length < E.size := Nat.not_lt.mpr h2
  have hno3 : ¬ dst.length < ct.length - E.bs := Nat.not_lt.mpr h3
  constructor
  · intro hne
    simp only [eaxOpen, if_pos h1, if_neg hno2, if_neg hno3, if_neg hne]
  · intro out stF hok
    by_cases heq : (eaxTag E nonce (ct.take (ct.length - E.size)) ad).take
        E.size = ct.drop (ct.length - E.size)
    · refine ⟨heq, ?_⟩
      simp only [eaxOpen, if_pos h1, if_neg hno2, if_neg hno3,
        if_pos heq] at hok
      rw [Prod.mk.injEq] at hok
      exact (Except.ok.inj hok.1).symm
    · simp only [eaxOpen, if_pos h1, if_neg hno2, if_neg hno3,
        if_neg heq] at hok
      rw [Prod.mk.injEq] at hok
      exact absurd hok.1 (by simp)

/-- Claim C6 (code bug): Open checks the dst length against
len(ciphertext) - mac.Size() (the block size, 16 here) instead of
len(ciphertext) - tagSize.  With tag size 1, a 20-byte ciphertext and a
10-byte dst, the claim requires the invalid-parameter failure, but Open
proceeds past the size check all the way to tag comparison and reports
an authentication error. -/
theorem open_dst_check_wrong_bound :
    (List.replicate 10 0 : List Nat).length
        < (List.replicate 19 0 ++ [5] : List Nat).length - demoE1.size ∧
      eaxOpen demoE1 demoSt (List.replicate 10 0) (List.replicate 16 0)
          (List.replicate 19 0 ++ [5]) []
        = (.error .auth, demoSt) := by
  decide

/-- Claim C8: with a correct-length nonce, a ciphertext shorter than the
tag size makes Open fail with the authentication error, the same error
as a tag mismatch, not with a size error. -/
theorem open_short_ciphertext_auth_error (E : EaxCipher) (st : EaxState)
    (dst nonce ct ad : List Nat) (h1 : nonce.length = E.bs)
    (h2 : ct.length < E.size) :
    eaxOpen E st dst nonce ct ad = (.error .auth, st) := by
  simp only [eaxOpen, if_pos h1, if_pos h2]

/-- Witness for C8 at a concrete instance. -/
theorem open_short_ciphertext_auth_error_witness :
    (List.replicate 16 0 : List Nat).length = demoE1.bs ∧
      ([] : List Nat).length < demoE1.size ∧
      eaxOpen demoE1 demoSt [] (List.replicate 16 0) [] []
        = (.error .auth, demoSt) :=
  ⟨by decide, by decide,
    open_short_ciphertext_auth_error demoE1 demoSt [] (List.replicate 16 0)
      [] [] (by decide) (by decide)⟩

/-- Claim C9: when the CMAC construction accepts the block cipher,
NewEAX succeeds exactly for tag sizes in [1, blockSize]; in particular
it succeeds at 1 and at blockSize, and fails at 0 and blockSize + 1. -/
theorem neweax_tagsize_range (encrypt mac : List Nat → List Nat)
    (bs tagsize : Nat) (hbs : 1 ≤ bs) :
    ((NewEAX true encrypt mac bs tagsize).isSome
        ↔ 1 ≤ tagsize ∧ tagsize ≤ bs) ∧
      (NewEAX true encrypt mac bs 1).isSome ∧
      (NewEAX true encrypt mac bs bs).isSome ∧
      ¬ (NewEAX true encrypt mac bs 0).isSome ∧
      ¬ (NewEAX true encrypt mac bs (bs + 1)).isSome := by
  have hiff : ∀ t, (NewEAX true encrypt mac bs t).isSome
      ↔ 1 ≤ t ∧ t ≤ bs := by
    intro t
    by_cases h : t < 1 ∨ bs < t
    · simp [NewEAX, h]
      rcases h with h | h <;> omega
    · simp [NewEAX, h]
      omega
  refine ⟨hiff _, (hiff 1).mpr ⟨le_refl 1, hbs⟩,
    (hiff bs).mpr ⟨hbs, le_refl bs⟩, ?_, ?_⟩
  · intro hs
    exact absurd ((hiff 0).mp hs) (by omega)
  · intro hs
    exact absurd ((hiff (bs + 1)).mp hs) (by omega)

/-- Witness for C9 at a concrete block size and tag size. -/
theorem neweax_tagsize_range_witness :
    1 ≤ 16 ∧
      (((NewEAX true demoE.encrypt demoE.mac 16 3).isSome
          ↔ 1 ≤ 3 ∧ 3 ≤ 16) ∧
        (NewEAX true demoE.encrypt demoE.mac 16 1).isSome ∧
        (NewEAX true demoE.encrypt demoE.mac 16 16).isSome ∧
        ¬ (NewEAX true demoE.encrypt demoE.mac 16 0).isSome ∧
        ¬ (NewEAX true demoE.encrypt demoE.mac 16 17).isSome) :=
  ⟨by decide,
    neweax_tagsize_range demoE.encrypt demoE.mac 16 3 (by decide)⟩

/-- Witness for C4 at a concrete instance (the definitions evaluated). -/
theorem seal_tag_structure_witness :
    (1 ≤ demoE.bs ∧ (List.replicate 16 0 : List Nat).length = demoE.bs ∧
        ([1, 2, 3] : List Nat).length
          ≤ (List.replicate 3 0 : List Nat).length ∧
        (∀ m, (demoE.mac m).length = demoE.bs) ∧
        demoSt.ctr.length = demoE.bs) ∧
      (eaxSeal demoE demoSt (List.replicate 3 0) (List.replicate 16 0)
          [1, 2, 3] [9]).map Prod.fst
        = some ([1, 2, 3] ++ List.replicate 16 0) :=
  ⟨⟨by decide, by decide, by decide, fun _ => rfl, by decide⟩,
    seal_tag_structure demoE demoSt (List.replicate 3 0)
      (List.replicate 16 0) [1, 2, 3] [9] (by decide) (by decide)
      (by decide) (fun _ => rfl) (by decide)⟩

/-- Witness for C5 at a concrete instance. -/
theorem open_auth_gate_witness :
    ((List.replicate 16 0 : List Nat).length = demoE1.bs ∧
        demoE1.size ≤ (List.replicate 20 1 : List Nat).length ∧
        (List.replicate 20 1 : List Nat).length - demoE1.bs
          ≤ (List.replicate 19 0 : List Nat).length) ∧
      (((eaxTag demoE1 (List.replicate 16 0) (List.replicate 19 1) []).take
            demoE1.size ≠ [1] →
          eaxOpen demoE1 demoSt (List.replicate 19 0) (List.replicate 16 0)
              (List.replicate 20 1) []
            = (.error .auth, demoSt)) ∧
        (∀ out stF,
          eaxOpen demoE1 demoSt (List.replicate 19 0) (List.replicate 16 0)
              (List.replicate 20 1) []
            = (.ok out, stF) →
          (eaxTag demoE1 (List.replicate 16 0) (List.replicate 19 1)
                []).take demoE1.size
              = [1] ∧
            out = (ctrCrypt demoE1.encrypt demoE1.bs
                (copyInto demoSt.ctr
                  (eaxAuth demoE1 nTag (List.replicate 16 0)))
                demoSt.block (List.replicate 19 0)
                (List.replicate 19 1)).1.take 19)) :=
  ⟨⟨by decide, by decide, by decide⟩,
    open_auth_gate demoE1 demoSt (List.replicate 19 0)
      (List.replicate 16 0) (List.replicate 20 1) [] (by decide)
      (by decide) (by decide)⟩

/-- A call against an eaxCipher instance, for modelling call
histories. -/
inductive EaxCall where
  | sealc (dst nonce pt ad : List Nat) : EaxCall
  | openc (dst nonce ct ad : List Nat) : EaxCall

/-- The scratch state after one call; a panicking Seal leaves the
scratch buffers as they were. -/
def eaxStep (E : EaxCipher) (st : EaxState) : EaxCall → EaxState
  | .sealc d n p a =>
      match eaxSeal E st d n p a with
      | some r => r.2
      | none => st
  | .openc d n c a => (eaxOpen E st d n c a).2

/-- The scratch state after a whole call history. -/
def eaxRun (E : EaxCipher) (st : EaxState) (hist : List EaxCall) :
    EaxState :=
  hist.foldl (eaxStep E) st

theorem eaxStep_ctr_length (E : EaxCipher) (st : EaxState)
    (call : EaxCall) :
    (eaxStep E st call).ctr.length = st.ctr.length := by
  cases call with
  | sealc d n p a =>
    by_cases hn : n.length = E.bs
    · by_cases hd : d.length < p.length
      · simp [eaxStep, eaxSeal, hn, hd]
      · simp only [eaxStep, eaxSeal, if_pos hn, if_neg hd]
        rw [ctrCrypt_ctr_length, copyInto_length]
    · simp [eaxStep, eaxSeal, hn]
  | openc d n c a =>
    by_cases hn : n.length = E.bs
    · by_cases hlt : c.length < E.size
      · simp [eaxStep, eaxOpen, hn, hlt]
      · by_cases hdst : d.length < c.length - E.bs
        · simp [eaxStep, eaxOpen, hn, hlt, hdst]
        · by_cases htag : (eaxTag E n (c.take (c.length - E.size))
              a).take E.size = c.drop (c.length - E.size)
          · simp only [eaxStep, eaxOpen, if_pos hn, if_neg hlt,
              if_neg hdst, if_pos htag]
            rw [ctrCrypt_ctr_length, copyInto_length]
          · simp [eaxStep, eaxOpen, hn, hlt, hdst, htag]
    · simp [eaxStep, eaxOpen, hn]

theorem eaxRun_ctr_length (E : EaxCipher) (hist : List EaxCall) :
    ∀ st : EaxState, (eaxRun E st hist).ctr.length = st.ctr.length := by
  induction hist with
  | nil => intro st; rfl
  | cons cHead rest ih =>
    intro st
    show (eaxRun E (eaxStep E st cHead) rest).ctr.length = _
    rw [ih, eaxStep_ctr_length]

/-- The first component of a Seal result does not depend on the scratch
state: the counter register is overwritten by copy(c.ctr, authNonce)
and the keystream register is overwritten before use. -/
theorem eaxSeal_fst_state_free (E : EaxCipher) (st1 st2 : EaxState)
    (dst nonce pt ad : List Nat) (hm : ∀ m, (E.mac m).length = E.bs)
    (h1 : st1.ctr.length = E.bs) (h2 : st2.ctr.length = E.bs) :
    (eaxSeal E st1 dst nonce pt ad).map Prod.fst
      = (eaxSeal E st2 dst nonce pt ad).map Prod.fst := by
  by_cases hn : nonce.length = E.bs
  · by_cases hd : dst.length < pt.length
    · simp [eaxSeal, hn, hd]
    · simp only [eaxSeal, if_pos hn, if_neg hd, Option.map_some']
      have hc1 : copyInto st1.ctr (eaxAuth E nTag nonce)
          = eaxAuth E nTag nonce := by
        refine copyInto_full _ _ ?_
        rw [h1]
        exact hm _
      have hc2 : copyInto st2.ctr (eaxAuth E nTag nonce)
          = eaxAuth E nTag nonce := by
        refine copyInto_full _ _ ?_
        rw [h2]
        exact hm _
      rw [hc1, hc2,
        (ctrCrypt_blk_irrel E.encrypt E.bs (eaxAuth E nTag nonce)
          st1.block st2.block dst pt).1]
  · simp [eaxSeal, hn]

/-- Claim C10: two Seal calls with identical arguments, made after
arbitrary different prior call histories on the same instance, return
identical outputs. -/
theorem seal_history_independent (E : EaxCipher)
    (hm : ∀ m, (E.mac m).length = E.bs) (st0 : EaxState)
    (h0 : st0.ctr.length = E.bs) (hist1 hist2 : List EaxCall)
    (dst nonce pt ad : List Nat) :
    (eaxSeal E (eaxRun E st0 hist1) dst nonce pt ad).map Prod.fst
      = (eaxSeal E (eaxRun E st0 hist2) dst nonce pt ad).map Prod.fst :=
  eaxSeal_fst_state_free E _ _ dst nonce pt ad hm
    (by rw [eaxRun_ctr_length]; exact h0)
    (by rw [eaxRun_ctr_length]; exact h0)

/-- Witness for C10 at a concrete instance and two distinct histories. -/
theorem seal_history_independent_witness :
    ((∀ m, (demoE.mac m).length = demoE.bs) ∧
        demoSt.ctr.length = demoE.bs) ∧
      (eaxSeal demoE
          (eaxRun demoE demoSt
            [EaxCall.sealc (List.replicate 5 0) (List.replicate 16 0)
              (List.replicate 5 1) []])
          (List.replicate 4 0) (List.replicate 16 0) [1, 2, 3, 4]
          []).map Prod.fst
        = (eaxSeal demoE (eaxRun demoE demoSt [])
            (List.replicate 4 0) (List.replicate 16 0) [1, 2, 3, 4]
            []).map Prod.fst :=
  ⟨⟨fun _ => rfl, by decide⟩,
    seal_history_independent demoE (fun _ => rfl) demoSt (by decide)
      [EaxCall.sealc (List.replicate 5 0) (List.replicate 16 0)
        (List.replicate 5 1) []] []
      (List.replicate 4 0) (List.replicate 16 0) [1, 2, 3, 4] []⟩

end Eax
